import Mathlib

/-!
Verification of the PDF-to-audio converter (app.py): the text chunker
(PDFAudioReader.chunk_text), the sliding-window rate limiter
(RateLimit.is_allowed) and the synthesis driver (PDFAudioReader.text_to_speech).

Strings are modelled as lists of characters (Python strings are sequences of
code points, so Python len agrees with List.length). Real-valued timestamps
(datetime.now().timestamp()) are modelled as rationals. The external speech
API (elevenlabs.generate) is modelled as an oracle parameter; the driver
additionally records a trace of the externally visible actions it performs.
-/

/-- Coerce a Lean string literal to its list of characters. -/
def lc (s : String) : List Char := s.data

/-- The characters removed by Python str.strip (ASCII whitespace:
space, tab, newline, vertical tab, form feed, carriage return). -/
def isPySpace (c : Char) : Bool :=
  c = ' ' || c = '\t' || c = '\n' || c = '\x0b' || c = '\x0c' || c = '\r'

/-- Python sentence.strip(): drop leading and trailing whitespace. -/
def pyStrip (l : List Char) : List Char :=
  ((l.dropWhile isPySpace).reverse.dropWhile isPySpace).reverse

/-- Python text.replace('\n', ' '): replace every newline by a space. -/
def replaceNl (l : List Char) : List Char :=
  l.map (fun c => if c = '\n' then ' ' else c)

/-- Python text.split('. '): greedy left-to-right split on the two-character
delimiter ". ". `acc` holds the (reversed) characters of the field being
scanned. -/
def splitDotAux : List Char → List Char → List (List Char)
  | acc, '.' :: ' ' :: rest => acc.reverse :: splitDotAux [] rest
  | acc, c :: rest => splitDotAux (c :: acc) rest
  | acc, [] => [acc.reverse]

def splitDot (l : List Char) : List (List Char) := splitDotAux [] l

/-- Python '. '.join(parts). -/
def joinDot (parts : List (List Char)) : List Char :=
  (parts.intersperse (lc (". "))).flatten

/-- A flushed chunk: '. '.join(current_chunk) + '.'. -/
def renderChunk (g : List (List Char)) : List Char := joinDot g ++ ['.']

/-- The loop of PDFAudioReader.chunk_text: `current` is current_chunk,
`clen` is current_length, `chunks` the accumulated output. -/
def chunkLoop (max_chars : ℕ) : List (List Char) → List (List Char) → ℕ →
    List (List Char) → List (List Char)
  | [], current, _, chunks =>
    if current.isEmpty then chunks else chunks ++ [renderChunk current]
  | s :: rest, current, clen, chunks =>
    let s' := pyStrip s
    if s'.isEmpty then chunkLoop max_chars rest current clen chunks
    else if clen + s'.length + 2 ≤ max_chars then
      chunkLoop max_chars rest (current ++ [s']) (clen + s'.length + 2) chunks
    else
      chunkLoop max_chars rest [s'] s'.length
        (if current.isEmpty then chunks else chunks ++ [renderChunk current])

/-- PDFAudioReader.chunk_text: split text into smaller chunks. -/
def chunk_text (text : List Char) (max_chars : ℕ) : List (List Char) :=
  chunkLoop max_chars (splitDot (replaceNl text)) [] 0 []

/-- Same loop, but accumulating the sentence groups of each chunk instead of
the rendered chunk strings. -/
def chunkGroupsLoop (max_chars : ℕ) : List (List Char) → List (List Char) → ℕ →
    List (List (List Char)) → List (List (List Char))
  | [], current, _, groups =>
    if current.isEmpty then groups else groups ++ [current]
  | s :: rest, current, clen, groups =>
    let s' := pyStrip s
    if s'.isEmpty then chunkGroupsLoop max_chars rest current clen groups
    else if clen + s'.length + 2 ≤ max_chars then
      chunkGroupsLoop max_chars rest (current ++ [s']) (clen + s'.length + 2) groups
    else
      chunkGroupsLoop max_chars rest [s'] s'.length
        (if current.isEmpty then groups else groups ++ [current])

/-- The sentence groups underlying chunk_text: each chunk of
`chunk_text text max_chars` is the group joined with ". " plus a trailing
period. -/
def chunkGroups (text : List Char) (max_chars : ℕ) : List (List (List Char)) :=
  chunkGroupsLoop max_chars (splitDot (replaceNl text)) [] 0 []

/-- The stripped non-empty members of a sentence list. -/
def cleanList (sents : List (List Char)) : List (List Char) :=
  (sents.map pyStrip).filter (fun s => !s.isEmpty)

/-- The non-empty stripped sentences of the input: newlines normalised to
spaces, split on ". ", each stripped, empty results dropped. -/
def cleanSentences (text : List Char) : List (List Char) :=
  cleanList (splitDot (replaceNl text))

/-- The RateLimit class: maximum number of admissions, window length in
seconds, and the list of admission timestamps (datetime timestamps, modelled
as rationals). -/
structure RateLimit where
  max_requests : ℕ
  time_window : ℚ
  requests : List ℚ
deriving DecidableEq

/-- RateLimit.is_allowed, with the clock reading `now` made explicit: purge
timestamps that are time_window or more seconds old, refuse if max_requests
remain, otherwise record `now` and admit. Returns the decision and the
updated state. -/
def is_allowed (now : ℚ) (rl : RateLimit) : Bool × RateLimit :=
  let reqs := rl.requests.filter (fun r => now - r < rl.time_window)
  if rl.max_requests ≤ reqs.length then
    (false, { rl with requests := reqs })
  else
    (true, { rl with requests := reqs ++ [now] })

/-- The externally visible actions of one text_to_speech invocation. -/
inductive TtsEvent where
  | rateCheck (allowed : Bool)
  | chunked (chunks : List (List Char))
  | synthCall (chunk : List Char)
deriving DecidableEq

def TtsEvent.isRateCheck : TtsEvent → Bool
  | .rateCheck _ => true
  | _ => false

def TtsEvent.isSynthCall : TtsEvent → Bool
  | .synthCall _ => true
  | _ => false

/-- The message of the exception raised when the limiter refuses. -/
def rateLimitMsg : List Char := lc ("Rate limit exceeded. Please try again later.")

/-- The wrapper prefix of the exception raised on a synthesis failure:
"Error generating audio: " + str(e). -/
def synthErrMsg (e : List Char) : List Char := lc ("Error generating audio: ") ++ e

/-- The per-chunk loop of text_to_speech: call generate on each chunk in
order, collecting audio segments; on the first failure re-raise the wrapped
error and stop. Also returns the list of synthesis calls made. -/
def synthLoop (gen : List Char → Except (List Char) α) :
    List (List Char) → Except (List Char) (List α) × List TtsEvent
  | [] => (Except.ok [], [])
  | c :: rest =>
    match gen c with
    | Except.error e => (Except.error (synthErrMsg e), [TtsEvent.synthCall c])
    | Except.ok a =>
      let (res, evs) := synthLoop gen rest
      (match res with
       | Except.ok segs => Except.ok (a :: segs)
       | Except.error e => Except.error e,
       TtsEvent.synthCall c :: evs)

/-- PDFAudioReader.text_to_speech: check the rate limiter once; if refused,
raise the rate-limit error; otherwise chunk the text with the default
max_chars of 2000 and synthesize every chunk in order. `gen` is the external
generate call, `now` the clock reading of the limiter check. Returns the
result (audio segments or error message), the updated limiter state, and the
trace of actions performed. -/
def text_to_speech (gen : List Char → Except (List Char) α) (now : ℚ)
    (rl : RateLimit) (text : List Char) :
    Except (List Char) (List α) × RateLimit × List TtsEvent :=
  let (allowed, rl') := is_allowed now rl
  if allowed then
    let chunks := chunk_text text 2000
    let (res, evs) := synthLoop gen chunks
    (res, rl', TtsEvent.rateCheck true :: TtsEvent.chunked chunks :: evs)
  else
    (Except.error rateLimitMsg, rl', [TtsEvent.rateCheck false])

/-- The quantity tracked by current_length when every sentence of the group
was counted with its ". " separator allowance: total sentence length plus two
per sentence. -/
def sentLen (g : List (List Char)) : ℕ := (g.map List.length).sum + 2 * g.length

/-- A chunk group is acceptable when its rendered chunk fits in
max_chars + 1 characters, or it is a lone sentence longer than max_chars. -/
def chunkOk (max_chars : ℕ) (g : List (List Char)) : Prop :=
  (renderChunk g).length ≤ max_chars + 1 ∨ ∃ s, g = [s] ∧ max_chars < s.length

/-- Relation between current_length and current_chunk inside the loop: the
counter either includes the separator allowance of every sentence (first
chunk, within budget) or undercounts it by exactly two (a chunk opened by the
overflow branch), in which case the budget check is only known once a second
sentence has been accepted. -/
def lenInv (max_chars : ℕ) (cur : List (List Char)) (clen : ℕ) : Prop :=
  (cur = [] ∧ clen = 0) ∨
  (cur ≠ [] ∧ ((clen = sentLen cur ∧ clen ≤ max_chars) ∨
    (clen + 2 = sentLen cur ∧ (2 ≤ cur.length → clen ≤ max_chars))))

/-- A specimen external generate call that always succeeds. -/
def genOk : List Char → Except (List Char) ℕ := fun c => Except.ok c.length

/-- A specimen external generate call that always fails. -/
def genBoom : List Char → Except (List Char) ℕ := fun _ => Except.error (lc ("boom"))

/-! ## Lemmas about the chunker -/

lemma chunkLoop_eq_groups (max_chars : ℕ) (sents : List (List Char)) :
    ∀ cur clen gs, chunkLoop max_chars sents cur clen (gs.map renderChunk) =
      (chunkGroupsLoop max_chars sents cur clen gs).map renderChunk := by
  induction sents with
  | nil =>
    intro cur clen gs
    simp only [chunkLoop, chunkGroupsLoop]
    by_cases h : cur.isEmpty
    · simp [h]
    · simp [h]
  | cons s rest ih =>
    intro cur clen gs
    simp only [chunkLoop, chunkGroupsLoop]
    by_cases h1 : (pyStrip s).isEmpty
    · simp [h1, ih]
    · by_cases h2 : clen + (pyStrip s).length + 2 ≤ max_chars
      · simpa [h1, h2] using ih (cur ++ [pyStrip s]) (clen + (pyStrip s).length + 2) gs
      · by_cases h3 : cur.isEmpty
        · simpa [h1, h2, h3] using ih [pyStrip s] (pyStrip s).length gs
        · have h := ih [pyStrip s] (pyStrip s).length (gs ++ [cur])
          simp only [List.map_append, List.map_cons, List.map_nil] at h
          simpa [h1, h2, h3] using h

lemma chunk_text_eq_groups (text : List Char) (max_chars : ℕ) :
    chunk_text text max_chars = (chunkGroups text max_chars).map renderChunk := by
  have h := chunkLoop_eq_groups max_chars (splitDot (replaceNl text)) [] 0 []
  simpa [chunk_text, chunkGroups] using h

lemma chunkGroupsLoop_flatten (max_chars : ℕ) (sents : List (List Char)) :
    ∀ cur clen gs, (chunkGroupsLoop max_chars sents cur clen gs).flatten =
      gs.flatten ++ cur ++ cleanList sents := by
  induction sents with
  | nil =>
    intro cur clen gs
    by_cases h : cur.isEmpty
    · simp [chunkGroupsLoop, h, List.isEmpty_iff.mp h, cleanList]
    · simp [chunkGroupsLoop, h, cleanList]
  | cons s rest ih =>
    intro cur clen gs
    simp only [chunkGroupsLoop]
    by_cases h1 : (pyStrip s).isEmpty
    · simp [h1, ih, cleanList, List.filter]
    · by_cases h2 : clen + (pyStrip s).length + 2 ≤ max_chars
      · simp [h1, h2, ih, cleanList, List.filter]
      · by_cases h3 : cur.isEmpty
        · simp [h1, h2, h3, ih, List.isEmpty_iff.mp h3, cleanList, List.filter]
        · simp [h1, h2, h3, ih, cleanList, List.filter]

lemma chunkGroups_flatten (text : List Char) (max_chars : ℕ) :
    (chunkGroups text max_chars).flatten = cleanSentences text := by
  have h := chunkGroupsLoop_flatten max_chars (splitDot (replaceNl text)) [] 0 []
  simpa [chunkGroups, cleanSentences] using h

lemma chunkGroupsLoop_ne_nil (max_chars : ℕ) (sents : List (List Char)) :
    ∀ cur clen gs, (∀ g ∈ gs, g ≠ []) →
      ∀ g ∈ chunkGroupsLoop max_chars sents cur clen gs, g ≠ [] := by
  induction sents with
  | nil =>
    intro cur clen gs hgs g hg
    by_cases h : cur.isEmpty
    · simp only [chunkGroupsLoop, h, if_pos] at hg
      exact hgs g hg
    · simp only [chunkGroupsLoop, h] at hg
      rcases List.mem_append.mp hg with h' | h'
      · exact hgs g h'
      · rcases List.mem_singleton.mp h' with rfl
        exact fun hnil => h (by simp [hnil])
  | cons s rest ih =>
    intro cur clen gs hgs g hg
    simp only [chunkGroupsLoop] at hg
    by_cases h1 : (pyStrip s).isEmpty
    · simp only [h1, if_pos] at hg
      exact ih cur clen gs hgs g hg
    · by_cases h2 : clen + (pyStrip s).length + 2 ≤ max_chars
      · simp only [h1, h2, if_neg, if_pos, Bool.false_eq_true, not_false_iff] at hg
        exact ih (cur ++ [pyStrip s]) (clen + (pyStrip s).length + 2) gs hgs g hg
      · simp only [h1, h2, if_neg, Bool.false_eq_true, not_false_iff] at hg
        by_cases h3 : cur.isEmpty
        · simp only [h3, if_pos] at hg
          exact ih [pyStrip s] (pyStrip s).length gs hgs g hg
        · simp only [h3] at hg
          refine ih [pyStrip s] (pyStrip s).length (gs ++ [cur]) ?_ g hg
          intro g' hg'
          rcases List.mem_append.mp hg' with h' | h'
          · exact hgs g' h'
          · rcases List.mem_singleton.mp h' with rfl
            exact fun hnil => h3 (by simp [hnil])

lemma chunkGroups_ne_nil (text : List Char) (max_chars : ℕ) :
    ∀ g ∈ chunkGroups text max_chars, g ≠ [] := by
  intro g hg
  exact chunkGroupsLoop_ne_nil max_chars (splitDot (replaceNl text)) [] 0 []
    (by simp) g hg

lemma joinDot_length (a : List Char) (rest : List (List Char)) :
    (joinDot (a :: rest)).length =
      a.length + ((rest.map List.length).sum + 2 * rest.length) := by
  induction rest generalizing a with
  | nil => simp [joinDot]
  | cons b rest ih =>
    have h : joinDot (a :: b :: rest) = a ++ lc (". ") ++ joinDot (b :: rest) := by
      simp [joinDot, List.intersperse]
    rw [h]
    simp only [List.length_append, ih b, List.map_cons, List.sum_cons, List.length_cons]
    simp [lc]
    ring

lemma renderChunk_length (a : List Char) (rest : List (List Char)) :
    (renderChunk (a :: rest)).length + 1 = sentLen (a :: rest) := by
  simp only [renderChunk, List.length_append, joinDot_length, sentLen,
    List.map_cons, List.sum_cons, List.length_cons]
  simp
  ring_nf

lemma sentLen_append_single (cur : List (List Char)) (s : List Char) :
    sentLen (cur ++ [s]) = sentLen cur + s.length + 2 := by
  simp [sentLen]
  ring

lemma flush_ok {max_chars : ℕ} {cur : List (List Char)} {clen : ℕ}
    (hinv : lenInv max_chars cur clen) (hne : cur ≠ []) : chunkOk max_chars cur := by
  obtain ⟨a, rest, rfl⟩ : ∃ a rest, cur = a :: rest := by
    cases cur with
    | nil => exact absurd rfl hne
    | cons a rest => exact ⟨a, rest, rfl⟩
  have hlen := renderChunk_length a rest
  rcases hinv with ⟨h, _⟩ | ⟨_, ⟨hA, hAle⟩ | ⟨hB, hBle⟩⟩
  · exact absurd h (by simp)
  · left; omega
  · cases rest with
    | nil =>
      by_cases hs : a.length ≤ max_chars
      · left
        have : sentLen [a] = a.length + 2 := by simp [sentLen]
        omega
      · right; exact ⟨a, rfl, by omega⟩
    | cons b rest' =>
      left
      have : 2 ≤ (a :: b :: rest').length := by simp
      omega

lemma chunkGroupsLoop_ok (max_chars : ℕ) (sents : List (List Char)) :
    ∀ cur clen gs, (∀ g ∈ gs, chunkOk max_chars g) → lenInv max_chars cur clen →
      ∀ g ∈ chunkGroupsLoop max_chars sents cur clen gs, chunkOk max_chars g := by
  induction sents with
  | nil =>
    intro cur clen gs hgs hinv g hg
    simp only [chunkGroupsLoop] at hg
    by_cases h : cur.isEmpty
    · rw [if_pos h] at hg
      exact hgs g hg
    · rw [if_neg h] at hg
      rcases List.mem_append.mp hg with h' | h'
      · exact hgs g h'
      · rcases List.mem_singleton.mp h' with rfl
        exact flush_ok hinv (fun hnil => h (by simp [hnil]))
  | cons s rest ih =>
    intro cur clen gs hgs hinv g hg
    simp only [chunkGroupsLoop] at hg
    by_cases h1 : (pyStrip s).isEmpty
    · rw [if_pos h1] at hg
      exact ih cur clen gs hgs hinv g hg
    · rw [if_neg h1] at hg
      by_cases h2 : clen + (pyStrip s).length + 2 ≤ max_chars
      · rw [if_pos h2] at hg
        refine ih (cur ++ [pyStrip s]) (clen + (pyStrip s).length + 2) gs hgs ?_ g hg
        have hap := sentLen_append_single cur (pyStrip s)
        rcases hinv with ⟨rfl, rfl⟩ | ⟨hne, ⟨hA, _⟩ | ⟨hB, _⟩⟩
        · right
          have hs : sentLen ([] ++ [pyStrip s]) = (pyStrip s).length + 2 := by
            simp [sentLen]
          exact ⟨by simp, Or.inl ⟨by omega, by omega⟩⟩
        · right
          refine ⟨by simp, Or.inl ⟨by omega, h2⟩⟩
        · right
          refine ⟨by simp, Or.inr ⟨by omega, fun _ => h2⟩⟩
      · rw [if_neg h2] at hg
        have hgs' : ∀ g' ∈ (if cur.isEmpty then gs else gs ++ [cur]), chunkOk max_chars g' := by
          by_cases h3 : cur.isEmpty
          · rw [if_pos h3]; exact hgs
          · rw [if_neg h3]
            intro g' hg'
            rcases List.mem_append.mp hg' with h' | h'
            · exact hgs g' h'
            · rcases List.mem_singleton.mp h' with rfl
              exact flush_ok hinv (fun hnil => h3 (by simp [hnil]))
        refine ih [pyStrip s] (pyStrip s).length _ hgs' ?_ g hg
        right
        refine ⟨by simp, Or.inr ⟨by simp [sentLen], fun habs => ?_⟩⟩
        simp at habs

lemma chunkGroups_ok (text : List Char) (max_chars : ℕ) :
    ∀ g ∈ chunkGroups text max_chars, chunkOk max_chars g := by
  intro g hg
  exact chunkGroupsLoop_ok max_chars (splitDot (replaceNl text)) [] 0 []
    (by simp) (Or.inl ⟨rfl, rfl⟩) g hg

/-! ## Lemmas about the synthesis loop -/

lemma synthLoop_events {α : Type} (gen : List Char → Except (List Char) α) :
    ∀ cs, ∀ e ∈ (synthLoop gen cs).2, e.isSynthCall = true := by
  intro cs
  induction cs with
  | nil => simp [synthLoop]
  | cons c rest ih =>
    rcases hsl : synthLoop gen rest with ⟨res, evs⟩
    intro e he
    cases hg : gen c <;> simp [synthLoop, hg, hsl] at he
    · rcases he with rfl
      rfl
    · rcases he with rfl | he
      · rfl
      · exact ih e (by rw [hsl]; exact he)

lemma synthLoop_no_rateCheck {α : Type} (gen : List Char → Except (List Char) α)
    (cs : List (List Char)) : ∀ e ∈ (synthLoop gen cs).2, e.isRateCheck = false := by
  intro e he
  have h := synthLoop_events gen cs e he
  cases e <;> simp_all [TtsEvent.isSynthCall, TtsEvent.isRateCheck]

lemma synthLoop_error {α : Type} (gen : List Char → Except (List Char) α)
    (bad : List Char) (post : List (List Char)) (e : List Char)
    (hbad : gen bad = Except.error e) :
    ∀ pre, (∀ c ∈ pre, ∃ a, gen c = Except.ok a) →
      synthLoop gen (pre ++ bad :: post) =
        (Except.error (synthErrMsg e), (pre ++ [bad]).map TtsEvent.synthCall) := by
  intro pre
  induction pre with
  | nil =>
    intro _
    simp [synthLoop, hbad]
  | cons c pre ih =>
    intro hpre
    obtain ⟨a, ha⟩ := hpre c (by simp)
    have h := ih (fun c' hc' => hpre c' (by simp [hc']))
    simp [synthLoop, ha, h]

/-! ## Claim theorems -/

/-- C1 (as written, refuted): chunk_text is claimed to keep every chunk within
max_chars unless the chunk is a lone sentence longer than max_chars. On
"ab. abc" with max_chars = 3, the chunk "abc." has length 4 > 3 although every
source sentence has length at most 3, so the claimed exception does not apply. -/
theorem chunk_length_claim_cex :
    chunk_text (lc ("ab. abc")) 3 = [lc ("ab."), lc ("abc.")] ∧
    (lc ("abc.")).length = 4 ∧
    (∀ s ∈ cleanSentences (lc ("ab. abc")), s.length ≤ 3) := by decide

/-- C1 (amended): every chunk produced by chunk_text has length at most
max_chars + 1, except when the chunk is a single source sentence (plus the
appended period) whose own length exceeds max_chars. -/
theorem chunk_length_bound (text : List Char) (max_chars : ℕ) (c : List Char)
    (hc : c ∈ chunk_text text max_chars) :
    c.length ≤ max_chars + 1 ∨
      ∃ s, s ∈ cleanSentences text ∧ c = s ++ ['.'] ∧ max_chars < s.length := by
  rw [chunk_text_eq_groups] at hc
  obtain ⟨g, hg, rfl⟩ := List.mem_map.mp hc
  rcases chunkGroups_ok text max_chars g hg with h | ⟨s, rfl, hs⟩
  · exact Or.inl h
  · right
    refine ⟨s, ?_, ?_, hs⟩
    · rw [← chunkGroups_flatten text max_chars]
      exact List.mem_flatten.mpr ⟨[s], hg, by simp⟩
    · simp [renderChunk, joinDot]

/-- Witness for chunk_length_bound at text = "ab. abc", max_chars = 3 and the
chunk "abc.". -/
theorem chunk_length_bound_witness :
    (lc ("abc.")).length ≤ 3 + 1 ∨
      ∃ s, s ∈ cleanSentences (lc ("ab. abc")) ∧
        lc ("abc.") = s ++ ['.'] ∧ 3 < s.length :=
  chunk_length_bound (lc ("ab. abc")) 3 (lc ("abc.")) (by decide)

/-- C2 (as written, refuted): on "Hello world. This is a test. Short." with
max_chars = 15 the chunker does not return ["Hello world.", "This is a test.",
"Short."]: the final sentence keeps its own period after split('. '), so the
last chunk is "Short.." with a doubled period. -/
theorem chunk_example_cex :
    chunk_text (lc ("Hello world. This is a test. Short.")) 15 ≠
      [lc ("Hello world."), lc ("This is a test."), lc ("Short.")] := by decide

/-- C2 (amended): chunk_text("Hello world. This is a test. Short.", 15)
returns exactly ["Hello world.", "This is a test.", "Short.."]. -/
theorem chunk_example_amended :
    chunk_text (lc ("Hello world. This is a test. Short.")) 15 =
      [lc ("Hello world."), lc ("This is a test."), lc ("Short..")] := by decide

/-- C4: the chunks of chunk_text are exactly the sentence groups joined with
". " and a trailing period, and the groups flattened in order are exactly the
non-empty stripped sentences of the newline-normalised input split on ". ":
stripping the reconstructed separators and appended periods recovers all
sentence content in order. -/
theorem chunk_content_preserved (text : List Char) (max_chars : ℕ) :
    chunk_text text max_chars = (chunkGroups text max_chars).map renderChunk ∧
    (chunkGroups text max_chars).flatten = cleanSentences text :=
  ⟨chunk_text_eq_groups text max_chars, chunkGroups_flatten text max_chars⟩

/-- C9: chunk_text applied to the empty string returns the empty chunk list,
for every max_chars. -/
theorem chunk_empty_text : ∀ max_chars : ℕ, chunk_text (lc ("")) max_chars = [] :=
  fun _ => rfl

/-- C10: every chunk produced by chunk_text is non-empty and ends in a period,
and an input whose sentences all strip to empty (only whitespace, newlines and
bare ". " delimiters) produces no chunk at all. -/
theorem chunk_nonempty_period (text : List Char) (max_chars : ℕ) :
    (∀ c ∈ chunk_text text max_chars, c ≠ [] ∧ c.getLast? = some ('.')) ∧
    (cleanSentences text = [] → chunk_text text max_chars = []) := by
  constructor
  · intro c hc
    rw [chunk_text_eq_groups] at hc
    obtain ⟨g, hg, rfl⟩ := List.mem_map.mp hc
    constructor
    · simp [renderChunk]
    · simp [renderChunk]
  · intro hcs
    have hflat := chunkGroups_flatten text max_chars
    rw [hcs] at hflat
    have hnil : chunkGroups text max_chars = [] := by
      cases hgroups : chunkGroups text max_chars with
      | nil => rfl
      | cons g gs =>
        have hne := chunkGroups_ne_nil text max_chars g (by rw [hgroups]; simp)
        rw [hgroups] at hflat
        cases g with
        | nil => exact absurd rfl hne
        | cons x xs => simp at hflat
    rw [chunk_text_eq_groups, hnil]
    rfl

/-- Witness for chunk_nonempty_period: the chunk "ab." of chunk_text("ab. x", 3)
is non-empty and period-terminated, and the all-whitespace input " \n .  "
yields no chunks. -/
theorem chunk_nonempty_period_witness :
    (lc ("ab.") ≠ [] ∧ (lc ("ab.")).getLast? = some ('.')) ∧
      chunk_text (lc (" \n .  ")) 5 = [] :=
  ⟨(chunk_nonempty_period (lc ("ab. x")) 3).1 (lc ("ab.")) (by decide),
   (chunk_nonempty_period (lc (" \n .  ")) 5).2 (by decide)⟩

/-- C3: for RateLimit(max_requests = 2, time_window = 10), two immediate calls
to is_allowed (clock reading 0) return true, a third immediate call returns
false, and a call exactly 10 seconds after the first admissions returns true,
because the strict comparison now - t < time_window excludes a timestamp
exactly time_window seconds old. -/
theorem rateLimit_example :
    (is_allowed 0 ⟨2, 10, []⟩).1 = true ∧
    (is_allowed 0 (is_allowed 0 ⟨2, 10, []⟩).2).1 = true ∧
    (is_allowed 0 (is_allowed 0 (is_allowed 0 ⟨2, 10, []⟩).2).2).1 = false ∧
    (is_allowed 10 (is_allowed 0 (is_allowed 0 (is_allowed 0 ⟨2, 10, []⟩).2).2).2).1
      = true := by
  have h1 : is_allowed 0 ⟨2, 10, []⟩ = (true, ⟨2, 10, [0]⟩) := by
    simp [is_allowed, List.filter]
  have h2 : is_allowed 0 ⟨2, 10, [0]⟩ = (true, ⟨2, 10, [0, 0]⟩) := by
    simp [is_allowed, List.filter]
  have h3 : is_allowed 0 ⟨2, 10, [0, 0]⟩ = (false, ⟨2, 10, [0, 0]⟩) := by
    simp [is_allowed, List.filter]
  have h4 : (is_allowed 10 ⟨2, 10, [0, 0]⟩).1 = true := by
    simp [is_allowed, List.filter]
  rw [h1]
  rw [h2]
  rw [h3]
  exact ⟨rfl, rfl, rfl, h4⟩

/-- C7 (as written, refuted): with a non-positive window the freshly appended
timestamp itself violates the claimed invariant now - t < time_window: after
a call on RateLimit(1, 0) at time 0 the stored list is [0] and 0 - 0 < 0
fails. -/
theorem rateLimit_invariant_cex :
    (is_allowed 0 ⟨1, 0, []⟩).2.requests = [0] ∧
    ¬ (∀ t ∈ (is_allowed 0 ⟨1, 0, []⟩).2.requests, (0 : ℚ) - t < (0 : ℚ)) := by
  have h : (is_allowed 0 ⟨1, 0, []⟩).2.requests = [0] := by
    simp [is_allowed, List.filter]
  refine ⟨h, fun habs => ?_⟩
  rw [h] at habs
  have := habs 0 (by simp)
  norm_num at this

/-- C7 (amended): provided time_window is positive, a call to is_allowed on a
state whose timestamps are sorted and not in the future (nondecreasing clock)
leaves the stored timestamps sorted in insertion order with every entry
strictly within the window of the evaluation instant, older entries having
been purged. -/
theorem rateLimit_window_invariant (rl : RateLimit) (now : ℚ)
    (hw : 0 < rl.time_window)
    (hsorted : rl.requests.Sorted (· ≤ ·))
    (hpast : ∀ t ∈ rl.requests, t ≤ now) :
    (is_allowed now rl).2.requests.Sorted (· ≤ ·) ∧
    ∀ t ∈ (is_allowed now rl).2.requests, now - t < rl.time_window := by
  have hfs : (rl.requests.filter (fun r => now - r < rl.time_window)).Sorted (· ≤ ·) :=
    hsorted.filter _
  have hfw : ∀ t ∈ rl.requests.filter (fun r => now - r < rl.time_window),
      now - t < rl.time_window := by
    intro t ht
    exact of_decide_eq_true (List.mem_filter.mp ht).2
  by_cases h : rl.max_requests ≤
      (rl.requests.filter (fun r => now - r < rl.time_window)).length
  · simp only [is_allowed, h, if_pos]
    exact ⟨hfs, hfw⟩
  · simp only [is_allowed, h, if_neg, not_false_iff]
    constructor
    · rw [List.Sorted, List.pairwise_append]
      refine ⟨hfs, by simp, ?_⟩
      intro a ha b hb
      rcases List.mem_singleton.mp hb with rfl
      exact hpast a (List.mem_of_mem_filter ha)
    · intro t ht
      rcases List.mem_append.mp ht with h' | h'
      · exact hfw t h'
      · rcases List.mem_singleton.mp h' with rfl
        simpa using hw

/-- Witness for rateLimit_window_invariant at RateLimit(2, 10) with empty
history and clock reading 0. -/
theorem rateLimit_window_invariant_witness :
    (is_allowed 0 ⟨2, 10, []⟩).2.requests.Sorted (· ≤ ·) ∧
    ∀ t ∈ (is_allowed 0 ⟨2, 10, []⟩).2.requests, (0 : ℚ) - t < (10 : ℚ) :=
  rateLimit_window_invariant ⟨2, 10, []⟩ 0 (by norm_num) (by simp) (by simp)

/-- C8: when is_allowed returns false nothing is appended: the stored list is
exactly the purge of entries aged time_window or more; and every call leaves
max_requests and time_window unchanged. (The embedding is a total function,
matching the claim that the check never raises.) -/
theorem rateLimit_frame (rl : RateLimit) (now : ℚ) :
    ((is_allowed now rl).1 = false →
      (is_allowed now rl).2.requests =
        rl.requests.filter (fun r => now - r < rl.time_window)) ∧
    (is_allowed now rl).2.max_requests = rl.max_requests ∧
    (is_allowed now rl).2.time_window = rl.time_window := by
  by_cases h : rl.max_requests ≤
      (rl.requests.filter (fun r => now - r < rl.time_window)).length
  · simp [is_allowed, h]
  · simp [is_allowed, h]

/-- Witness for rateLimit_frame at RateLimit(0, 10) with empty history, where
the call is refused. -/
theorem rateLimit_frame_witness :
    (is_allowed 0 ⟨0, 10, []⟩).2.requests =
      ([] : List ℚ).filter (fun r => (0 : ℚ) - r < ((⟨0, 10, []⟩ : RateLimit)).time_window) ∧
    (is_allowed 0 ⟨0, 10, []⟩).2.max_requests = 0 ∧
    (is_allowed 0 ⟨0, 10, []⟩).2.time_window = 10 :=
  ⟨(rateLimit_frame ⟨0, 10, []⟩ 0).1 (by decide),
   (rateLimit_frame ⟨0, 10, []⟩ 0).2.1,
   (rateLimit_frame ⟨0, 10, []⟩ 0).2.2⟩

/-- C5: text_to_speech consults the rate limiter exactly once, as the first
action, before any chunking or synthesis; on refusal it returns the rate-limit
error having performed no other action, and on admission no further rate-limit
check occurs during the per-chunk synthesis calls. -/
theorem tts_rate_check_once {α : Type} (gen : List Char → Except (List Char) α)
    (now : ℚ) (rl : RateLimit) (text : List Char) :
    (text_to_speech gen now rl text).2.2.countP (fun e => e.isRateCheck) = 1 ∧
    (text_to_speech gen now rl text).2.2.head? =
      some (TtsEvent.rateCheck (is_allowed now rl).1) ∧
    ((is_allowed now rl).1 = false →
      (text_to_speech gen now rl text).1 = Except.error rateLimitMsg ∧
      (text_to_speech gen now rl text).2.2 = [TtsEvent.rateCheck false]) ∧
    ((is_allowed now rl).1 = true →
      ∀ e ∈ (text_to_speech gen now rl text).2.2.tail, e.isRateCheck = false) := by
  rcases hia : is_allowed now rl with ⟨b, rl'⟩
  cases b
  · simp [text_to_speech, hia, TtsEvent.isRateCheck, List.countP_cons]
  · rcases hsl : synthLoop gen (chunk_text text 2000) with ⟨res, evs⟩
    have hnorc : ∀ e ∈ evs, e.isRateCheck = false := by
      intro e he
      exact synthLoop_no_rateCheck gen (chunk_text text 2000) e (by rw [hsl]; exact he)
    have hc0 : evs.countP (fun e => e.isRateCheck) = 0 :=
      List.countP_eq_zero.mpr (fun e he => by simp [hnorc e he])
    refine ⟨?_, ?_, ?_, ?_⟩
    · simp [text_to_speech, hia, hsl, List.countP_cons, hc0,
        TtsEvent.isRateCheck]
      exact fun a ha => hnorc a ha
    · simp [text_to_speech, hia, hsl]
    · simp
    · intro _ e he
      simp only [text_to_speech, hia, hsl, List.tail_cons] at he
      rcases List.mem_cons.mp he with rfl | he'
      · rfl
      · exact hnorc e he'

/-- Witness for tts_rate_check_once: a refused invocation (RateLimit(0, 10))
returns the rate-limit error with a bare refusal trace, and in an admitted
invocation (RateLimit(2, 10)) no event after the first is a rate check. -/
theorem tts_rate_check_once_witness :
    ((text_to_speech genOk 0 ⟨0, 10, []⟩ (lc ("Hi"))).1 = Except.error rateLimitMsg ∧
      (text_to_speech genOk 0 ⟨0, 10, []⟩ (lc ("Hi"))).2.2 = [TtsEvent.rateCheck false]) ∧
    (∀ e ∈ (text_to_speech genOk 0 ⟨2, 10, []⟩ (lc ("Hi"))).2.2.tail,
      e.isRateCheck = false) :=
  ⟨(tts_rate_check_once genOk 0 ⟨0, 10, []⟩ (lc ("Hi"))).2.2.1 (by decide),
   (tts_rate_check_once genOk 0 ⟨2, 10, []⟩ (lc ("Hi"))).2.2.2 (by decide)⟩

/-- C6: if the external generate call fails on some chunk while every earlier
chunk succeeded, text_to_speech returns the error wrapping the external
failure and synthesizes no later chunk: the whole operation fails instead of
returning the audio segments produced before the failing chunk. -/
theorem tts_abort_on_failure {α : Type} (gen : List Char → Except (List Char) α)
    (now : ℚ) (rl : RateLimit) (text : List Char)
    (pre : List (List Char)) (bad : List Char) (post : List (List Char)) (e : List Char)
    (hallow : (is_allowed now rl).1 = true)
    (hchunks : chunk_text text 2000 = pre ++ bad :: post)
    (hpre : ∀ c ∈ pre, ∃ a, gen c = Except.ok a)
    (hbad : gen bad = Except.error e) :
    (text_to_speech gen now rl text).1 = Except.error (synthErrMsg e) ∧
    (text_to_speech gen now rl text).2.2 =
      TtsEvent.rateCheck true :: TtsEvent.chunked (pre ++ bad :: post) ::
        (pre ++ [bad]).map TtsEvent.synthCall := by
  rcases hia : is_allowed now rl with ⟨b, rl'⟩
  have hb : b = true := by rw [hia] at hallow; exact hallow
  subst hb
  have hsl := synthLoop_error gen bad post e hbad pre hpre
  simp [text_to_speech, hia, hchunks, hsl]

/-- Witness for tts_abort_on_failure: with an always-failing generate call and
the single-chunk text "Hi", the invocation fails with the wrapped error after
exactly one synthesis call. -/
theorem tts_abort_on_failure_witness :
    (text_to_speech genBoom 0 ⟨2, 10, []⟩ (lc ("Hi"))).1 =
      Except.error (synthErrMsg (lc ("boom"))) ∧
    (text_to_speech genBoom 0 ⟨2, 10, []⟩ (lc ("Hi"))).2.2 =
      TtsEvent.rateCheck true :: TtsEvent.chunked ([] ++ lc ("Hi.") :: []) ::
        (([] : List (List Char)) ++ [lc ("Hi.")]).map TtsEvent.synthCall :=
  tts_abort_on_failure genBoom 0 ⟨2, 10, []⟩ (lc ("Hi")) [] (lc ("Hi.")) [] (lc ("boom"))
    (by decide) (by decide) (by simp) rfl
